import Mathlib

/-!
Verification of the Smorta/Deep repository (files `dataset.py` and `models.py`)
against its natural-language specification.

The Python source is shallowly embedded:
* numpy arrays become `List`s; slicing `a[lo:hi]` becomes `drop`/`take`;
* Python exceptions become `Except PyErr`; a plain `return` of `None`
  becomes `Except.ok none`;
* timestamps (floats holding whole epoch seconds) become `ℚ`;
* the network is modelled twice: a tensor-shape semantics (batch, channels,
  height, width, skip-stack bookkeeping) for `SimpleUnet.forward`, and a
  value-level semantics over `ℚ`/`ℝ` for `Block.forward`,
  `SpatialAttention.forward` and `SinusoidalPositionEmbeddings.forward`.
  Learned layers (convolutions, batch norms, linear maps) and the
  transcendental `torch.sigmoid` are abstract parameters at value level.
-/

/-- Python exception kinds raised by the code paths modelled here. -/
inductive PyErr where
  | indexError
  | valueError
  | typeError
  | zeroDivisionError
deriving DecidableEq, Repr

/-- Whether a modelled Python call raised an exception. -/
def raisedErr {ε α : Type} : Except ε α → Bool
  | .error _ => true
  | .ok _ => false

/-! ## dataset.py : DownscalingDataset -/

/-- State built by `DownscalingDataset.__init__` (dataset.py lines 14-34):
the two (possibly gathered) arrays and the variable-name metadata. -/
structure DownscalingDataset (α β : Type) where
  low_res_data : List α
  high_res_data : List β
  low_var_name : Option String
  high_var_name : Option String
deriving DecidableEq, Repr

/-- Numpy fancy indexing `xs[indices]`: gathers the rows at `indices`,
raising `IndexError` on an out-of-range index. -/
def npGather {α : Type} (xs : List α) : List Nat → Except PyErr (List α)
  | [] => .ok []
  | i :: is =>
    match xs.get? i with
    | none => .error PyErr.indexError
    | some v =>
      match npGather xs is with
      | .error e => .error e
      | .ok l => .ok (v :: l)

/-- Model of `DownscalingDataset.__init__` (dataset.py lines 14-34): if `indices` is
given, both arrays are gathered first; only afterwards are the (gathered)
lengths compared, raising `ValueError` on mismatch. -/
def DownscalingDataset.init {α β : Type} (low_res_data : List α) (high_res_data : List β)
    (low_var_name high_var_name : Option String) (indices : Option (List Nat)) :
    Except PyErr (DownscalingDataset α β) :=
  match indices with
  | some idx =>
    match npGather low_res_data idx with
    | .error e => .error e
    | .ok l =>
      match npGather high_res_data idx with
      | .error e => .error e
      | .ok h =>
        if l.length ≠ h.length then .error PyErr.valueError
        else .ok ⟨l, h, low_var_name, high_var_name⟩
  | none =>
    if low_res_data.length ≠ high_res_data.length then .error PyErr.valueError
    else .ok ⟨low_res_data, high_res_data, low_var_name, high_var_name⟩

/-- Model of `DownscalingDataset.__len__` (dataset.py lines 37-38). -/
def DownscalingDataset.len {α β : Type} (ds : DownscalingDataset α β) : Nat :=
  ds.low_res_data.length

/-! ## dataset.py : spliting_indices -/

/-- Model of `spliting_indices` (dataset.py lines 61-66).  `np.random.permutation(n)`
is modelled by the explicit argument `perm`; the claims quantify over every
permutation of `range n`.  `int(p * n)` truncates, which on the nonnegative
inputs of the claims is the floor. -/
def spliting_indices (n : Nat) (val_pct test_pct : ℚ) (perm : List Nat) :
    List Nat × List Nat × List Nat :=
  let n_val := (val_pct * n).floor.toNat
  let n_test := (test_pct * n).floor.toNat
  let n_train := n - n_val - n_test
  (perm.take n_train, (perm.drop n_train).take n_val, perm.drop (n_train + n_val))

/-! ## dataset.py : merge_out_data / make_clean_data -/

/-- The on-disk archives and the calendar, abstracted: per-year high-res
field files and timestamp files (`download/cerra/...`), per-variable low-res
archives (`download/era5/...`), and `datetime(y, 1, 1, 1).timestamp()`. -/
structure AlignEnv (F V : Type) where
  cerraField : Int → List F
  cerraDt : Int → List ℚ
  era5Var : String → List V
  jan1h1 : Int → ℚ

/-- Python `range(start_year, end_year + 1)` over `Int` years. -/
def yearRange (start_year end_year : Int) : List Int :=
  (List.range (end_year + 1 - start_year).toNat).map (fun i => start_year + (i : Int))

/-- Model of `merge_out_data` (dataset.py lines 69-82): concatenate each year's field
and timestamp arrays in year order along the time axis. -/
def merge_out_data {F V : Type} (env : AlignEnv F V) (start_year end_year : Int) :
    List F × List ℚ :=
  ((yearRange start_year end_year).foldl (fun acc y => acc ++ env.cerraField y) [],
   (yearRange start_year end_year).foldl (fun acc y => acc ++ env.cerraDt y) [])

/-- The cerra files `merge_out_data` reads, in read order. -/
def mergeTrace (start_year end_year : Int) : List String :=
  ((yearRange start_year end_year).map (fun y =>
    ["download/cerra/si10-" ++ toString y ++ ".npy",
     "download/cerra/datetime_" ++ toString y ++ ".npy"])).flatten

/-- The in-variable loop of `make_clean_data` (dataset.py lines 91-99):
load each variable's archive, expand a trailing variable axis, and
concatenate across variables along it (`np.concatenate` raises `ValueError`
when the time lengths disagree).  Returns the era5 files read before any
failure, and `none` when `in_vars` was empty (Python's `in_data = None`). -/
def buildInData {F V : Type} (env : AlignEnv F V) :
    List String → Option (List (List V)) → List String × Except PyErr (Option (List (List V)))
  | [], acc => ([], .ok acc)
  | v :: vs, acc =>
    let file := "download/era5/" ++ v ++ "-2010_2020.nc"
    let tmp : List (List V) := (env.era5Var v).map (fun x => [x])
    match acc with
    | none =>
      let r := buildInData env vs (some tmp)
      (file :: r.1, r.2)
    | some d =>
      if d.length = tmp.length then
        let r := buildInData env vs (some (List.zipWith (fun a b => a ++ b) d tmp))
        (file :: r.1, r.2)
      else ([file], .error PyErr.valueError)

/-- Model of `np.where(xs == v)[0][0]` : index of the first exact match, if any. -/
def npWhereFirst (xs : List ℚ) (v : ℚ) : Option Nat :=
  xs.findIdx? (fun x => x == v)

/-- Python slice `xs[lo:hi]`. -/
def pySlice {γ : Type} (xs : List γ) (lo hi : Nat) : List γ :=
  (xs.drop lo).take (hi - lo)

/-- Model of `make_clean_data` (dataset.py lines 85-106).  Returns the list of files
read (the I/O trace) and the call's outcome: `.ok none` models the bare
`return` (after a `print`) on a bad year range, `.error .indexError` models
the `IndexError` from `np.where(...)[0][0]` on a missing exact timestamp
match, and `.error .typeError` models slicing `in_data` while it is still
`None` (empty `in_vars`). -/
def make_clean_data {F V : Type} (env : AlignEnv F V) (in_vars : List String)
    (start_year end_year : Int) :
    List String × Except PyErr (Option (List (List V) × List F)) :=
  if start_year < 2010 ∨ end_year > 2020 then
    ([], .ok none)
  else
    let outPair := merge_out_data env 2010 2020
    let inR := buildInData env in_vars none
    let trace := mergeTrace 2010 2020 ++ inR.1
    match inR.2 with
    | .error e => (trace, .error e)
    | .ok inDataOpt =>
      let low_hour := env.jan1h1 start_year
      let high_hour := env.jan1h1 end_year
      match npWhereFirst outPair.2 low_hour with
      | none => (trace, .error PyErr.indexError)
      | some low_index =>
        match npWhereFirst outPair.2 high_hour with
        | none => (trace, .error PyErr.indexError)
        | some high_index =>
          match inDataOpt with
          | none => (trace, .error PyErr.typeError)
          | some in_data =>
            (trace, .ok (some (pySlice in_data low_index high_index,
                               pySlice outPair.1 low_index high_index)))

/-! ## models.py : tensor-shape semantics of Block and SimpleUnet

`TShape` is the shape `[B, C, H, W]` of a 4-d tensor.  Each layer becomes a
partial function on shapes: `none` models PyTorch raising a shape error. -/

/-- Shape of a 4-d tensor `[B, C, H, W]`. -/
structure TShape where
  b : Nat
  c : Nat
  h : Nat
  w : Nat
deriving DecidableEq, Repr, Inhabited

/-- Shape behaviour of `nn.Conv2d(in_ch, out_ch, k, s, p)`: the input must
carry `in_ch` channels and each padded spatial extent must reach the kernel,
else PyTorch raises; output extent is `(x + 2p - k) / s + 1`. -/
def conv2dShape (in_ch out_ch k s p : Nat) (x : TShape) : Option TShape :=
  if x.c = in_ch ∧ k ≤ x.h + 2 * p ∧ k ≤ x.w + 2 * p then
    some ⟨x.b, out_ch, (x.h + 2 * p - k) / s + 1, (x.w + 2 * p - k) / s + 1⟩
  else none

/-- Shape behaviour of `nn.ConvTranspose2d(in_ch, out_ch, k, s, p)`:
output extent is `(x - 1) * s + k - 2p`. -/
def convTranspose2dShape (in_ch out_ch k s p : Nat) (x : TShape) : Option TShape :=
  if x.c = in_ch ∧ 1 ≤ x.h ∧ 1 ≤ x.w then
    some ⟨x.b, out_ch, (x.h - 1) * s + k - 2 * p, (x.w - 1) * s + k - 2 * p⟩
  else none

/-- Torch broadcasting of one dimension (used for the batch axis of
`h + time_emb[..., None, None]`). -/
def broadcastDim (a b : Nat) : Option Nat :=
  if a = b then some a
  else if a = 1 then some b
  else if b = 1 then some a
  else none

/-- Construction-time configuration of one `Block` (models.py lines 72-96):
`Block(in_ch, out_ch, time_emb_dim, attention, up, dropout)`.  Only the
channel plan and the up/down mode bear on shapes. -/
structure BlockCfg where
  in_ch : Nat
  out_ch : Nat
  up : Bool
deriving DecidableEq, Repr, Inhabited

/-- Shape behaviour of `Block.forward` (models.py lines 98-118), where `tb`
is the batch length of the time-embedding vector `t`:
`conv1` (3×3, stride 1, padding 1, `in_ch → out_ch`; `relu` and `bnorm1`
keep the shape), the broadcast add of `time_mlp(t)` (shape `[tb, out_ch]`),
`conv2` (3×3, stride 1, padding 1), the shape-preserving attention and
dropout, and `transform`: `Conv2d(out_ch, out_ch, 4, 2, 1)` in down mode or
`ConvTranspose2d(out_ch, out_ch, 4, 2, 1)` in up mode. -/
def BlockCfg.forward (bc : BlockCfg) (tb : Nat) (x : TShape) : Option TShape :=
  match conv2dShape bc.in_ch bc.out_ch 3 1 1 x with
  | none => none
  | some h1 =>
    match broadcastDim h1.b tb with
    | none => none
    | some b2 =>
      match conv2dShape bc.out_ch bc.out_ch 3 1 1 ⟨b2, h1.c, h1.h, h1.w⟩ with
      | none => none
      | some h3 =>
        if bc.up then convTranspose2dShape bc.out_ch bc.out_ch 4 2 1 h3
        else conv2dShape bc.out_ch bc.out_ch 4 2 1 h3

/-- Shape behaviour of `torch.cat((x, r), dim=1)`: all axes except the
channel axis must agree; channels add. -/
def catShape (x r : TShape) : Option TShape :=
  if x.b = r.b ∧ x.h = r.h ∧ x.w = r.w then some ⟨x.b, x.c + r.c, x.h, x.w⟩
  else none

/-- The down loop of `SimpleUnet.forward` (models.py lines 165-168): run the
blocks in sequence and, after every block except the last, push its output
onto the skip stack (`residual_inputs.append(x)`).  Returns the final
feature shape, the pushed entries (most recent first), and the number of
pushes performed. -/
def runDowns : List BlockCfg → Nat → TShape → Option (TShape × List TShape × Nat)
  | [], _, x => some (x, [], 0)
  | bc :: bcs, tb, x =>
    match bc.forward tb x with
    | none => none
    | some y =>
      match bcs with
      | [] => some (y, [], 0)
      | _ :: _ =>
        match runDowns bcs tb y with
        | none => none
        | some (z, st, k) => some (z, st ++ [y], k + 1)

/-- The up loop of `SimpleUnet.forward` after up-stage 0 (models.py lines
169-174): each iteration pops the stack (`residual_inputs.pop()`, raising
`IndexError` — `none` — when empty), concatenates along channels, and runs
the block.  Returns the final shape, the remaining stack, and the number of
pops performed. -/
def runUpsRest : List BlockCfg → Nat → TShape → List TShape → Option (TShape × List TShape × Nat)
  | [], _, x, st => some (x, st, 0)
  | bc :: bcs, tb, x, st =>
    match st with
    | [] => none
    | r :: st2 =>
      match catShape x r with
      | none => none
      | some xr =>
        match bc.forward tb xr with
        | none => none
        | some y =>
          match runUpsRest bcs tb y st2 with
          | none => none
          | some (z, stF, k) => some (z, stF, k + 1)

/-- The whole up loop: up-stage 0 consumes no skip entry (`if i != 0` in
models.py line 170); the remaining stages run through `runUpsRest`. -/
def runUps (bcs : List BlockCfg) (tb : Nat) (x : TShape) (st : List TShape) :
    Option (TShape × List TShape × Nat) :=
  match bcs with
  | [] => some (x, st, 0)
  | bc :: rest =>
    match bc.forward tb x with
    | none => none
    | some y => runUpsRest rest tb y st

/-- Construction-time state of `SimpleUnet.__init__` (models.py lines
124-156). -/
structure SimpleUnet where
  input_channels : Nat
  output_channels : Nat
  down_channels : List Nat
  up_channels : List Nat
  up_in_channels : List Nat
  downs : List BlockCfg
  ups : List BlockCfg
deriving DecidableEq, Repr

/-- Model of `SimpleUnet.__init__` (models.py lines 124-156): `up_channels` is the
reversed plan; `up_in_channels` is its head followed by the doubled tail
(`[up[0]] + [up[i] * 2 for i in range(1, len(up))]`); the down path pairs
consecutive plan entries (`Block(down[i], down[i+1])` for
`i in range(len-1)`); the up path pairs `up_in_channels[i]` with
`up_channels[i+1]`.  An empty plan makes `self.up_channels[0]` raise
(`none`). -/
def SimpleUnet.init (unet_channels : List Nat) (input_channels output_channels : Nat) :
    Option SimpleUnet :=
  match unet_channels.reverse with
  | [] => none
  | u0 :: us =>
    some { input_channels := input_channels
           output_channels := output_channels
           down_channels := unet_channels
           up_channels := u0 :: us
           up_in_channels := u0 :: us.map (fun c => 2 * c)
           downs := (unet_channels.zip unet_channels.tail).map
                      (fun p => BlockCfg.mk p.1 p.2 false)
           ups := ((u0 :: us.map (fun c => 2 * c)).zip us).map
                      (fun p => BlockCfg.mk p.1 p.2 true) }

/-- Shape behaviour of `SimpleUnet.forward` (models.py lines 158-176), with
the skip-stack bookkeeping made explicit.  `tb` is the batch length of
`timestep`.  Steps: `conv0` (3×3, padding 1, `input_channels →
down_channels[0]`), `residual_inputs = [x]` (the conv0 output seeds the
stack before the down loop), the down loop, the up loop, and the final 1×1
projection `Conv2d(up_channels[-1], output_channels, 1)`.  Returns the
output shape, the stack left after the up loop, the number of pushes of the
down loop, and the number of pops of the up loop. -/
def SimpleUnet.forward (u : SimpleUnet) (tb : Nat) (x : TShape) :
    Option (TShape × List TShape × Nat × Nat) :=
  match conv2dShape u.input_channels (u.down_channels.headD 0) 3 1 1 x with
  | none => none
  | some x0 =>
    match runDowns u.downs tb x0 with
    | none => none
    | some (xd, pushed, npush) =>
      match runUps u.ups tb xd (pushed ++ [x0]) with
      | none => none
      | some (xu, stF, npop) =>
        match conv2dShape (u.up_channels.getLastD 0) u.output_channels 1 1 0 xu with
        | none => none
        | some y => some (y, stF, npush, npop)

/-- The output shape of `SimpleUnet.forward` alone. -/
def SimpleUnet.forwardShape (u : SimpleUnet) (tb : Nat) (x : TShape) : Option TShape :=
  (u.forward tb x).map (fun r => r.1)

/-- The skip stack left when the up pass completes. -/
def SimpleUnet.stackAfter (u : SimpleUnet) (tb : Nat) (x : TShape) : Option (List TShape) :=
  (u.forward tb x).map (fun r => r.2.1)

/-- The skip-stack entries the up pass expects, most recent first: channel
widths `cs`, spatial sizes doubling with depth into the list. -/
def stackFor (B : Nat) : List Nat → Nat → Nat → List TShape
  | [], _, _ => []
  | c :: cs, h, w => ⟨B, c, h, w⟩ :: stackFor B cs (2 * h) (2 * w)

/-! ## models.py : value-level semantics of Block and SpatialAttention

Tensors are total functions on `Fin` indices with rational entries.  The
learned layers (`conv1`, `conv2`, `transform`, `bnorm1`, `bnorm2`,
`time_mlp`, the 7×7 attention convolution) and the transcendental
`torch.sigmoid` are abstract parameters: the claims settled at this level
concern the order and dataflow of `Block.forward`, which is independent of
the layer weights. -/

/-- A `[B, C, H, W]` tensor with rational entries. -/
def Tensor (b c h w : Nat) : Type := Fin b → Fin c → Fin h → Fin w → ℚ

/-- A `[B, D]` matrix with rational entries. -/
def Mat (b d : Nat) : Type := Fin b → Fin d → ℚ

/-- Model of `nn.ReLU()` on a scalar: `max(x, 0)`. -/
def reluQ (x : ℚ) : ℚ := max x 0

/-- Model of `nn.ReLU()` applied elementwise to a 4-d tensor. -/
def reluT {b c h w : Nat} (x : Tensor b c h w) : Tensor b c h w :=
  fun bi ci i j => reluQ (x bi ci i j)

/-- Model of `nn.ReLU()` applied elementwise to a matrix. -/
def reluM {b d : Nat} (m : Mat b d) : Mat b d :=
  fun bi di => reluQ (m bi di)

/-- Model of `SpatialAttention.forward` (models.py lines 41-53): channel-wise mean
(`torch.mean(x, dim=1, keepdim=True)`) and channel-wise max
(`torch.max(x, dim=1, keepdim=True)[0]`), concatenated along the channel
axis to 2 channels, the learned 2→1 convolution `conv`, the gate `sigmoid`,
and the broadcast multiplication `x * attention`. -/
def SpatialAttention.forward {b c h w : Nat} (sigmoid : ℚ → ℚ)
    (conv : Tensor b 2 h w → Tensor b 1 h w) (x : Tensor b (c + 1) h w) :
    Tensor b (c + 1) h w :=
  let avg_out : Tensor b 1 h w :=
    fun bi _ i j => (∑ ci : Fin (c + 1), x bi ci i j) / (c + 1)
  let max_out : Tensor b 1 h w :=
    fun bi _ i j => Finset.univ.sup' Finset.univ_nonempty (fun ci => x bi ci i j)
  let concat : Tensor b 2 h w :=
    fun bi ci i j => if ci.val = 0 then avg_out bi 0 i j else max_out bi 0 i j
  let attention : Tensor b 1 h w :=
    fun bi ci i j => sigmoid (conv concat bi ci i j)
  fun bi ci i j => x bi ci i j * attention bi 0 i j

/-- The parameters of one `Block` (models.py lines 72-96) at value level:
out-channel count is `oc + 1` (a convolution with zero output channels is
meaningless and the channel-wise max needs a channel).  `attn_conv` is
`some` exactly when the block was built with `attention=True`; `drop` is
`some` exactly when a dropout rate was configured (its stochastic mask is
abstracted into the function). -/
structure BlockParams (b in_ch oc h w h2 w2 tdim : Nat) where
  time_mlp : Mat b tdim → Mat b (oc + 1)
  conv1 : Tensor b in_ch h w → Tensor b (oc + 1) h w
  conv2 : Tensor b (oc + 1) h w → Tensor b (oc + 1) h w
  bnorm1 : Tensor b (oc + 1) h w → Tensor b (oc + 1) h w
  bnorm2 : Tensor b (oc + 1) h w → Tensor b (oc + 1) h w
  transform : Tensor b (oc + 1) h w → Tensor b (oc + 1) h2 w2
  sigmoid : ℚ → ℚ
  attn_conv : Option (Tensor b 2 h w → Tensor b 1 h w)
  drop : Option (Tensor b (oc + 1) h w → Tensor b (oc + 1) h w)

/-- Model of `Block.forward` (models.py lines 98-118), line by line:
`h = self.bnorm1(self.relu(self.conv1(x)))`;
`time_emb = self.relu(self.time_mlp(t))` extended over two trailing axes and
added (`h = h + time_emb`); `h = self.bnorm2(self.relu(self.conv2(h)))`;
`h = self.spatial_attention(h)` when attention is enabled;
`h = self.drop(h)` when dropout is configured; finally `h = self.transform(h)`. -/
def Block.forward {b in_ch oc h w h2 w2 tdim : Nat}
    (p : BlockParams b in_ch oc h w h2 w2 tdim)
    (x : Tensor b in_ch h w) (t : Mat b tdim) : Tensor b (oc + 1) h2 w2 :=
  let ha := p.bnorm1 (reluT (p.conv1 x))
  let time_emb := reluM (p.time_mlp t)
  let hb : Tensor b (oc + 1) h w := fun bi ci i j => ha bi ci i j + time_emb bi ci
  let hc := p.bnorm2 (reluT (p.conv2 hb))
  let hd := match p.attn_conv with
            | some ac => SpatialAttention.forward p.sigmoid ac hc
            | none => hc
  let he := match p.drop with
            | some d => d hd
            | none => hd
  p.transform he

/-- Modelled from the spec's wording of the attention step (spec 4.5 step 4):
a per-location gate computed from the channel-wise average and channel-wise
max (each a single-channel map), concatenated (2 channels), convolved to 1
channel, passed through the gate function, and multiplied element-wise into
every channel of the feature map. -/
def specAttentionGate {b c h w : Nat} (sigmoid : ℚ → ℚ)
    (conv : Tensor b 2 h w → Tensor b 1 h w) (x : Tensor b (c + 1) h w) :
    Tensor b (c + 1) h w :=
  let average : Fin b → Fin h → Fin w → ℚ :=
    fun bi i j => (∑ ci : Fin (c + 1), x bi ci i j) / (c + 1)
  let maximum : Fin b → Fin h → Fin w → ℚ :=
    fun bi i j => Finset.univ.sup' Finset.univ_nonempty (fun ci => x bi ci i j)
  let twoChan : Tensor b 2 h w :=
    fun bi ci i j => if ci.val = 0 then average bi i j else maximum bi i j
  let gate : Fin b → Fin h → Fin w → ℚ :=
    fun bi i j => sigmoid (conv twoChan bi 0 i j)
  fun bi ci i j => gate bi i j * x bi ci i j

/-- Modelled from the spec's step list for the Conditional Resampling Block
(spec 4.5, steps 1-6): convolve then activate then normalize; project the
time embedding, activate, broadcast-add over all spatial locations; second
convolution, again activate-then-normalize; the attention gate if enabled;
the configured stochastic zeroing if enabled; the final resampling. -/
def specBlockForward {b in_ch oc h w h2 w2 tdim : Nat}
    (p : BlockParams b in_ch oc h w h2 w2 tdim)
    (x : Tensor b in_ch h w) (t : Mat b tdim) : Tensor b (oc + 1) h2 w2 :=
  let step1 := p.bnorm1 (reluT (p.conv1 x))
  let projected := reluM (p.time_mlp t)
  let step2 : Tensor b (oc + 1) h w := fun bi ci i j => step1 bi ci i j + projected bi ci
  let step3 := p.bnorm2 (reluT (p.conv2 step2))
  let step4 := match p.attn_conv with
               | some ac => specAttentionGate p.sigmoid ac step3
               | none => step3
  let step5 := match p.drop with
               | some d => d step4
               | none => step4
  p.transform step5

/-! ## models.py : SinusoidalPositionEmbeddings -/

/-- Model of `SinusoidalPositionEmbeddings.forward` (models.py lines 14-22):
`half_dim = dim // 2`; `math.log(10000) / (half_dim - 1)` raises
`ZeroDivisionError` when the integer denominator is zero (`half_dim == 1`);
otherwise the frequencies are `exp(-(i * scale))` for `i < half_dim`, the
outer product with `time` is taken, and `sin` and `cos` are concatenated
along the last axis. -/
noncomputable def SinusoidalPositionEmbeddings.forward (dim : Nat) (time : List ℝ) :
    Except PyErr (List (List ℝ)) :=
  let half_dim := dim / 2
  if ((half_dim : Int) - 1) = 0 then .error PyErr.zeroDivisionError
  else
    let scale : ℝ := Real.log 10000 / ((half_dim : ℝ) - 1)
    let freqs : List ℝ := (List.range half_dim).map
      (fun (i : Nat) => Real.exp (-((i : ℝ) * scale)))
    .ok (time.map (fun t =>
      (freqs.map (fun f => Real.sin (t * f))) ++ (freqs.map (fun f => Real.cos (t * f)))))

/-! ## Concrete values used by witnesses and counterexamples -/

/-- A concrete archive environment: every year's timestamp array is `[0]`
and every year's field array is `[37]`; each era5 variable holds the series
`[0, 1, 2]`; every requested boundary timestamp is `999` (absent from every
timestamp array). -/
def envC : AlignEnv ℚ ℚ :=
  { cerraField := fun _ => [37]
    cerraDt := fun _ => [0]
    era5Var := fun _ => [0, 1, 2]
    jan1h1 := fun _ => 999 }

/-- The state `SimpleUnet.__init__((4, 8, 16), 2, 2)` builds. -/
def unetW1 : SimpleUnet :=
  { input_channels := 2
    output_channels := 2
    down_channels := [4, 8, 16]
    up_channels := [16, 8, 4]
    up_in_channels := [16, 16, 8]
    downs := [⟨4, 8, false⟩, ⟨8, 16, false⟩]
    ups := [⟨16, 8, true⟩, ⟨16, 4, true⟩] }

/-- The state `SimpleUnet.__init__((4, 8, 16), 1, 5)` builds. -/
def unetW2 : SimpleUnet :=
  { input_channels := 1
    output_channels := 5
    down_channels := [4, 8, 16]
    up_channels := [16, 8, 4]
    up_in_channels := [16, 16, 8]
    downs := [⟨4, 8, false⟩, ⟨8, 16, false⟩]
    ups := [⟨16, 8, true⟩, ⟨16, 4, true⟩] }

/-- A concrete parameter set for a 1×1×1×1 block (constant-zero learned
layers, identity norms, attention enabled, no dropout). -/
def blockParamsC : BlockParams 1 1 0 1 1 1 1 1 :=
  { time_mlp := fun _ => fun _ _ => 0
    conv1 := fun _ => fun _ _ _ _ => 0
    conv2 := id
    bnorm1 := id
    bnorm2 := id
    transform := id
    sigmoid := fun q => q
    attn_conv := some (fun _ => fun _ _ _ _ => 0)
    drop := none }

/-- A concrete `[1, 1, 1, 1]` input tensor. -/
def tensorC : Tensor 1 1 1 1 := fun _ _ _ _ => 5

/-- A concrete `[1, 1]` time-embedding matrix. -/
def matC : Mat 1 1 := fun _ _ => 3

/-! ## Helper lemmas -/

theorem npGather_ok_length {α : Type} (xs : List α) (idx : List Nat) (l : List α)
    (h : npGather xs idx = .ok l) : l.length = idx.length := by
  induction idx generalizing l with
  | nil =>
    simp only [npGather] at h
    cases h
    rfl
  | cons i is ih =>
    simp only [npGather] at h
    cases hg : xs.get? i with
    | none => rw [hg] at h; cases h
    | some v =>
      rw [hg] at h
      cases hr : npGather xs is with
      | error e => rw [hr] at h; cases h
      | ok l2 =>
        rw [hr] at h
        cases h
        simp [ih l2 hr]

theorem findIdx_eq_none_of_not_mem (v : ℚ) (xs : List ℚ) (hv : v ∉ xs) :
    ∀ i, List.findIdx? (fun x => x == v) xs i = none := by
  induction xs with
  | nil => intro i; rfl
  | cons x l ih =>
    intro i
    have hx : ¬ ((x == v) = true) := by
      simp only [beq_iff_eq]
      intro he
      exact hv (he ▸ List.mem_cons_self x l)
    have hv2 : v ∉ l := fun hm => hv (List.mem_cons_of_mem x hm)
    show (if (x == v) = true then some i else List.findIdx? (fun x => x == v) l (i + 1)) = none
    rw [if_neg hx]
    exact ih hv2 (i + 1)

theorem npWhereFirst_eq_none (xs : List ℚ) (v : ℚ) (hv : v ∉ xs) :
    npWhereFirst xs v = none :=
  findIdx_eq_none_of_not_mem v xs hv 0

/-! ## Claim C5 -/

/-- C5: when the requested year range fails the guard
`start_year < 2010 or end_year > 2020`, `make_clean_data` performs no I/O
(its file trace is empty) and returns `None` without raising — the
validation is an early `return` after a `print`, not a raised error.  This
is the amended form of the claim: early exit before any I/O is confirmed,
but the exit is a silent `None`, not a raised validation error. -/
theorem c5_year_guard_returns_none {F V : Type} (env : AlignEnv F V)
    (in_vars : List String) (start_year end_year : Int)
    (h : start_year < 2010 ∨ end_year > 2020) :
    make_clean_data env in_vars start_year end_year = ([], .ok none) := by
  simp only [make_clean_data, if_pos h]

theorem c5_year_guard_returns_none_witness :
    make_clean_data envC ["u10"] 2009 2015 = ([], .ok none) :=
  c5_year_guard_returns_none envC ["u10"] 2009 2015 (by decide)

/-- C5 counterexample: at the concrete out-of-range request
`(start_year, end_year) = (2009, 2015)` the operation does not raise any
error to the caller: it returns `None` with an empty I/O trace.  This
refutes the claim that the call "fails with a hard validation error raised
to the caller". -/
theorem c5_year_guard_cex :
    make_clean_data envC ["u10"] 2009 2015 = ([], .ok none) ∧
      raisedErr (make_clean_data envC ["u10"] 2009 2015).2 = false := by
  constructor
  · rfl
  · rfl

/-! ## Claim C6 -/

/-- C6 (amended): without an index subset, `DownscalingDataset` construction
fails with a length-mismatch `ValueError` exactly when
`len(low_res) != len(high_res)`, and on success `__len__` equals both
lengths.  With an index subset, the arrays are gathered **before** the
length check, so whenever both gathers succeed the two gathered arrays both
have `len(indices)` rows, the check passes regardless of the original
lengths, and `__len__` equals `len(indices)`. -/
theorem c6_init_length_check :
    (∀ (α β : Type) (low : List α) (high : List β) (ln hn : Option String),
       low.length ≠ high.length →
       DownscalingDataset.init low high ln hn none = .error PyErr.valueError) ∧
    (∀ (α β : Type) (low : List α) (high : List β) (ln hn : Option String),
       low.length = high.length →
       DownscalingDataset.init low high ln hn none = .ok ⟨low, high, ln, hn⟩ ∧
         DownscalingDataset.len (⟨low, high, ln, hn⟩ : DownscalingDataset α β) = low.length ∧
         DownscalingDataset.len (⟨low, high, ln, hn⟩ : DownscalingDataset α β) = high.length) ∧
    (∀ (α β : Type) (low : List α) (high : List β) (ln hn : Option String)
       (idx : List Nat) (l : List α) (h : List β),
       npGather low idx = .ok l → npGather high idx = .ok h →
       DownscalingDataset.init low high ln hn (some idx) = .ok ⟨l, h, ln, hn⟩ ∧
         DownscalingDataset.len (⟨l, h, ln, hn⟩ : DownscalingDataset α β) = idx.length) := by
  refine ⟨?_, ?_, ?_⟩
  · intro α β low high ln hn hne
    simp only [DownscalingDataset.init, if_pos hne]
  · intro α β low high ln hn he
    refine ⟨by simp only [DownscalingDataset.init, he]; simp, rfl, ?_⟩
    simp [DownscalingDataset.len, he]
  · intro α β low high ln hn idx l h hl hh
    have h1 : l.length = idx.length := npGather_ok_length low idx l hl
    have h2 : h.length = idx.length := npGather_ok_length high idx h hh
    refine ⟨?_, ?_⟩
    · simp only [DownscalingDataset.init, hl, hh]
      rw [if_neg (by omega)]
    · simp [DownscalingDataset.len, h1]

theorem c6_init_length_check_witness :
    (DownscalingDataset.init [(1 : Nat)] [(2 : Nat), 3] none none none
       = .error PyErr.valueError) ∧
    (DownscalingDataset.init [(1 : Nat), 2] [(5 : Nat), 6] none none none
       = .ok ⟨[1, 2], [5, 6], none, none⟩ ∧
     DownscalingDataset.len (⟨[1, 2], [5, 6], none, none⟩ : DownscalingDataset Nat Nat) = 2 ∧
     DownscalingDataset.len (⟨[1, 2], [5, 6], none, none⟩ : DownscalingDataset Nat Nat) = 2) ∧
    (DownscalingDataset.init [(1 : Nat), 2, 3] [(4 : Nat), 5, 6] none none (some [1, 0])
       = .ok ⟨[2, 1], [5, 4], none, none⟩ ∧
     DownscalingDataset.len (⟨[2, 1], [5, 4], none, none⟩ : DownscalingDataset Nat Nat) = 2) :=
  ⟨c6_init_length_check.1 Nat Nat [1] [2, 3] none none (by decide),
   c6_init_length_check.2.1 Nat Nat [1, 2] [5, 6] none none rfl,
   c6_init_length_check.2.2 Nat Nat [1, 2, 3] [4, 5, 6] none none [1, 0] [2, 1] [5, 4] rfl rfl⟩

/-- C6 counterexample: with the index subset `[0, 1]`, originals of lengths
5 and 2 are accepted — construction succeeds and the length is 2, although
`len(low_res) != len(high_res)`.  The length check runs after gathering, so
it can never fire when an index subset is supplied and in range. -/
theorem c6_init_length_check_cex :
    DownscalingDataset.init [(0 : Nat), 1, 2, 3, 4] [(10 : Nat), 11] none none (some [0, 1])
      = .ok ⟨[0, 1], [10, 11], none, none⟩ ∧
    ([(0 : Nat), 1, 2, 3, 4].length ≠ [(10 : Nat), 11].length) := by
  exact ⟨rfl, by decide⟩

/-! ## Claim C8 -/

/-- C8: once the year-range guard passes and the low-res variable loading
succeeds, a requested boundary timestamp with no exact match in the merged
high-resolution timestamp array makes `make_clean_data` raise (the
`IndexError` from `np.where(out_date == hour)[0][0]` on an empty match
set); there is no fallback to a nearest timestamp. -/
theorem c8_exact_match_or_raise {F V : Type} (env : AlignEnv F V)
    (in_vars : List String) (start_year end_year : Int)
    (hy : ¬ (start_year < 2010 ∨ end_year > 2020))
    (o : Option (List (List V)))
    (hload : (buildInData env in_vars none).2 = .ok o)
    (hmiss : env.jan1h1 start_year ∉ (merge_out_data env 2010 2020).2 ∨
             env.jan1h1 end_year ∉ (merge_out_data env 2010 2020).2) :
    (make_clean_data env in_vars start_year end_year).2 = .error PyErr.indexError := by
  simp only [make_clean_data, if_neg hy, hload]
  rcases hmiss with hm | hm
  · rw [npWhereFirst_eq_none _ _ hm]
  · cases hlo : npWhereFirst (merge_out_data env 2010 2020).2 (env.jan1h1 start_year) with
    | none => rfl
    | some lo =>
      rw [npWhereFirst_eq_none _ _ hm]

theorem c8_exact_match_or_raise_witness :
    (make_clean_data envC ["u10"] 2010 2020).2 = .error PyErr.indexError :=
  c8_exact_match_or_raise envC ["u10"] 2010 2020 (by decide)
    (some [[0], [1], [2]]) rfl (Or.inl (by decide))

/-! ## Claim C7 -/

/-- C7: for every valid `(n, val_pct, test_pct)` with nonnegative
percentages summing below 1, and every permutation `perm` of `range n`
(modelling `np.random.permutation(n)`), the three index lists returned by
`spliting_indices` have sizes `n - n_val - n_test`, `n_val = floor(val_pct
* n)` and `n_test = floor(test_pct * n)`, are pairwise disjoint, and
together are a permutation of `{0, ..., n-1}`. -/
theorem c7_split_partition (n : Nat) (val_pct test_pct : ℚ) (perm : List Nat)
    (hv : 0 ≤ val_pct) (ht : 0 ≤ test_pct) (hsum : val_pct + test_pct < 1)
    (hp : perm.Perm (List.range n)) :
    ((spliting_indices n val_pct test_pct perm).1.length
        = n - (val_pct * n).floor.toNat - (test_pct * n).floor.toNat) ∧
    ((spliting_indices n val_pct test_pct perm).2.1.length
        = (val_pct * n).floor.toNat) ∧
    ((spliting_indices n val_pct test_pct perm).2.2.length
        = (test_pct * n).floor.toNat) ∧
    ((spliting_indices n val_pct test_pct perm).1.Disjoint
        (spliting_indices n val_pct test_pct perm).2.1) ∧
    ((spliting_indices n val_pct test_pct perm).1.Disjoint
        (spliting_indices n val_pct test_pct perm).2.2) ∧
    ((spliting_indices n val_pct test_pct perm).2.1.Disjoint
        (spliting_indices n val_pct test_pct perm).2.2) ∧
    (((spliting_indices n val_pct test_pct perm).1
        ++ (spliting_indices n val_pct test_pct perm).2.1
        ++ (spliting_indices n val_pct test_pct perm).2.2).Perm (List.range n)) := by
  have hlen : perm.length = n := by
    simpa using hp.length_eq
  set nv := (val_pct * n).floor.toNat with hnv
  set nt := (test_pct * n).floor.toNat with hnt
  have key : nv + nt ≤ n := by
    rcases Nat.eq_zero_or_pos n with h0 | hn
    · subst h0
      have hz1 : (val_pct * (0 : Nat) : ℚ) = 0 := by push_cast; ring
      have h1 : nv = 0 := by rw [hnv, hz1]; decide
      have hz2 : (test_pct * (0 : Nat) : ℚ) = 0 := by push_cast; ring
      have h2 : nt = 0 := by rw [hnt, hz2]; decide
      omega
    · have hfv : (0 : Int) ≤ (val_pct * n).floor :=
        Int.floor_nonneg.mpr (mul_nonneg hv (by positivity))
      have hft : (0 : Int) ≤ (test_pct * n).floor :=
        Int.floor_nonneg.mpr (mul_nonneg ht (by positivity))
      have hq : (((val_pct * n).floor : ℚ) + ((test_pct * n).floor : ℚ))
          ≤ val_pct * n + test_pct * n :=
        add_le_add (Int.floor_le _) (Int.floor_le _)
      have hlt : val_pct * n + test_pct * n < n := by
        have hnq : (0 : ℚ) < n := by exact_mod_cast hn
        calc val_pct * n + test_pct * n = (val_pct + test_pct) * n := by ring
          _ < 1 * n := by exact mul_lt_mul_of_pos_right hsum hnq
          _ = n := one_mul _
      have hz : (val_pct * n).floor + (test_pct * n).floor < (n : Int) := by
        exact_mod_cast lt_of_le_of_lt hq hlt
      rw [hnv, hnt]
      omega
  have hsplit : spliting_indices n val_pct test_pct perm
      = (perm.take (n - nv - nt), (perm.drop (n - nv - nt)).take nv,
         perm.drop ((n - nv - nt) + nv)) := rfl
  have hnd : perm.Nodup := hp.nodup_iff.mpr (List.nodup_range n)
  have hnd2 : (perm.drop (n - nv - nt)).Nodup := (List.drop_sublist _ _).nodup hnd
  have hdd : perm.drop ((n - nv - nt) + nv) = (perm.drop (n - nv - nt)).drop nv := by
    rw [List.drop_drop]
  refine ⟨?_, ?_, ?_, ?_, ?_, ?_, ?_⟩
  · rw [hsplit]
    simp only [List.length_take]
    omega
  · rw [hsplit]
    simp only [List.length_take, List.length_drop]
    omega
  · rw [hsplit]
    simp only [List.length_drop]
    omega
  · rw [hsplit]
    intro a ha hb
    exact (List.disjoint_take_drop hnd le_rfl) ha (List.take_subset _ _ hb)
  · rw [hsplit]
    exact List.disjoint_take_drop hnd (by omega)
  · rw [hsplit]
    simp only [hdd]
    exact List.disjoint_take_drop hnd2 le_rfl
  · rw [hsplit]
    have e1 : (perm.drop (n - nv - nt)).take nv ++ perm.drop ((n - nv - nt) + nv)
        = perm.drop (n - nv - nt) := by
      rw [hdd]
      exact List.take_append_drop nv (perm.drop (n - nv - nt))
    have e2 : perm.take (n - nv - nt) ++ ((perm.drop (n - nv - nt)).take nv
        ++ perm.drop ((n - nv - nt) + nv)) = perm := by
      rw [e1]
      exact List.take_append_drop _ _
    have e3 : perm.take (n - nv - nt) ++ (perm.drop (n - nv - nt)).take nv
        ++ perm.drop ((n - nv - nt) + nv) = perm := by
      rw [List.append_assoc]
      exact e2
    rw [e3]
    exact hp

theorem c7_split_partition_witness :
    ((spliting_indices 10 (3/20) (3/20) [3, 1, 4, 0, 5, 9, 2, 6, 8, 7]).1.length
        = 10 - ((3/20 : ℚ) * 10).floor.toNat - ((3/20 : ℚ) * 10).floor.toNat) ∧
    ((spliting_indices 10 (3/20) (3/20) [3, 1, 4, 0, 5, 9, 2, 6, 8, 7]).2.1.length
        = ((3/20 : ℚ) * 10).floor.toNat) ∧
    ((spliting_indices 10 (3/20) (3/20) [3, 1, 4, 0, 5, 9, 2, 6, 8, 7]).2.2.length
        = ((3/20 : ℚ) * 10).floor.toNat) ∧
    ((spliting_indices 10 (3/20) (3/20) [3, 1, 4, 0, 5, 9, 2, 6, 8, 7]).1.Disjoint
        (spliting_indices 10 (3/20) (3/20) [3, 1, 4, 0, 5, 9, 2, 6, 8, 7]).2.1) ∧
    ((spliting_indices 10 (3/20) (3/20) [3, 1, 4, 0, 5, 9, 2, 6, 8, 7]).1.Disjoint
        (spliting_indices 10 (3/20) (3/20) [3, 1, 4, 0, 5, 9, 2, 6, 8, 7]).2.2) ∧
    ((spliting_indices 10 (3/20) (3/20) [3, 1, 4, 0, 5, 9, 2, 6, 8, 7]).2.1.Disjoint
        (spliting_indices 10 (3/20) (3/20) [3, 1, 4, 0, 5, 9, 2, 6, 8, 7]).2.2) ∧
    (((spliting_indices 10 (3/20) (3/20) [3, 1, 4, 0, 5, 9, 2, 6, 8, 7]).1
        ++ (spliting_indices 10 (3/20) (3/20) [3, 1, 4, 0, 5, 9, 2, 6, 8, 7]).2.1
        ++ (spliting_indices 10 (3/20) (3/20) [3, 1, 4, 0, 5, 9, 2, 6, 8, 7]).2.2).Perm
        (List.range 10)) :=
  c7_split_partition 10 (3/20) (3/20) [3, 1, 4, 0, 5, 9, 2, 6, 8, 7]
    (by norm_num) (by norm_num) (by norm_num) (by decide)

/-! ## Helper lemmas for the shape semantics -/

theorem conv2dShape_3_1_1 (ic oc B C H W : Nat) (hC : C = ic) (hH : 1 ≤ H) (hW : 1 ≤ W) :
    conv2dShape ic oc 3 1 1 ⟨B, C, H, W⟩ = some ⟨B, oc, H, W⟩ := by
  simp only [conv2dShape]
  rw [if_pos ⟨hC, by omega, by omega⟩]
  simp only [Option.some.injEq, TShape.mk.injEq]
  refine ⟨trivial, trivial, by omega, by omega⟩

theorem conv2dShape_1_1_0 (ic oc B C H W : Nat) (hC : C = ic) (hH : 1 ≤ H) (hW : 1 ≤ W) :
    conv2dShape ic oc 1 1 0 ⟨B, C, H, W⟩ = some ⟨B, oc, H, W⟩ := by
  simp only [conv2dShape]
  rw [if_pos ⟨hC, by omega, by omega⟩]
  simp only [Option.some.injEq, TShape.mk.injEq]
  refine ⟨trivial, trivial, by omega, by omega⟩

theorem conv2dShape_4_2_1 (ic oc B C H W : Nat) (hC : C = ic) (hH : 2 ≤ H) (hW : 2 ≤ W) :
    conv2dShape ic oc 4 2 1 ⟨B, C, H, W⟩
      = some ⟨B, oc, (H - 2) / 2 + 1, (W - 2) / 2 + 1⟩ := by
  simp only [conv2dShape]
  rw [if_pos ⟨hC, by omega, by omega⟩]
  simp only [Option.some.injEq, TShape.mk.injEq]
  refine ⟨trivial, trivial, by omega, by omega⟩

theorem convTranspose2dShape_4_2_1 (ic oc B C H W : Nat) (hC : C = ic)
    (hH : 1 ≤ H) (hW : 1 ≤ W) :
    convTranspose2dShape ic oc 4 2 1 ⟨B, C, H, W⟩ = some ⟨B, oc, 2 * H, 2 * W⟩ := by
  simp only [convTranspose2dShape]
  rw [if_pos ⟨hC, hH, hW⟩]
  simp only [Option.some.injEq, TShape.mk.injEq]
  refine ⟨trivial, trivial, by omega, by omega⟩

theorem broadcastDim_self (B : Nat) : broadcastDim B B = some B := by
  simp [broadcastDim]

theorem block_down_shape (a oc B s m m2 : Nat) (hm : 1 ≤ m) (hm2 : 1 ≤ m2) :
    BlockCfg.forward ⟨a, oc, false⟩ B ⟨B, a, 2 ^ (s + 1) * m, 2 ^ (s + 1) * m2⟩
      = some ⟨B, oc, 2 ^ s * m, 2 ^ s * m2⟩ := by
  have hp : 1 ≤ 2 ^ s := Nat.one_le_two_pow
  have hH : 2 ≤ 2 ^ (s + 1) * m := by
    have : 2 ^ (s + 1) = 2 * 2 ^ s := by ring
    rw [this]
    nlinarith
  have hW : 2 ≤ 2 ^ (s + 1) * m2 := by
    have : 2 ^ (s + 1) = 2 * 2 ^ s := by ring
    rw [this]
    nlinarith
  simp only [BlockCfg.forward]
  rw [conv2dShape_3_1_1 a oc B a _ _ rfl (by omega) (by omega)]
  simp only [broadcastDim_self]
  rw [conv2dShape_3_1_1 oc oc B oc _ _ rfl (by omega) (by omega)]
  simp only [Bool.false_eq_true, if_neg]
  have harith : ∀ k : Nat, 1 ≤ k → (2 ^ (s + 1) * k - 2) / 2 + 1 = 2 ^ s * k := by
    intro k hk
    have h1 : 2 ^ (s + 1) * k = 2 * (2 ^ s * k) := by ring
    have h2 : 1 ≤ 2 ^ s * k := by nlinarith
    rw [h1]
    omega
  rw [conv2dShape_4_2_1 oc oc B oc _ _ rfl hH hW, harith m hm, harith m2 hm2]
  exact if_neg not_false

theorem block_up_shape (c d B H W : Nat) (hH : 1 ≤ H) (hW : 1 ≤ W) :
    BlockCfg.forward ⟨c, d, true⟩ B ⟨B, c, H, W⟩ = some ⟨B, d, 2 * H, 2 * W⟩ := by
  simp only [BlockCfg.forward]
  rw [conv2dShape_3_1_1 c d B c _ _ rfl hH hW]
  simp only [broadcastDim_self]
  rw [conv2dShape_3_1_1 d d B d _ _ rfl hH hW]
  exact convTranspose2dShape_4_2_1 d d B d H W rfl hH hW

theorem stackFor_append (B : Nat) (cs : List Nat) (c h w : Nat) :
    stackFor B (cs ++ [c]) h w
      = stackFor B cs h w ++ [⟨B, c, 2 ^ cs.length * h, 2 ^ cs.length * w⟩] := by
  induction cs generalizing h w with
  | nil => simp [stackFor]
  | cons d ds ih =>
    simp only [List.cons_append, stackFor, List.append_eq]
    rw [ih (2 * h) (2 * w), List.length_cons]
    have e1 : 2 ^ ds.length * (2 * h) = 2 ^ (ds.length + 1) * h := by ring
    have e2 : 2 ^ ds.length * (2 * w) = 2 ^ (ds.length + 1) * w := by ring
    rw [e1, e2]

theorem runDowns_single (bc : BlockCfg) (tb : Nat) (x : TShape) :
    runDowns [bc] tb x =
      match bc.forward tb x with
      | none => none
      | some y => some (y, [], 0) := rfl

theorem runDowns_cons_cons (bc1 bc2 : BlockCfg) (bcs : List BlockCfg) (tb : Nat) (x : TShape) :
    runDowns (bc1 :: bc2 :: bcs) tb x =
      match bc1.forward tb x with
      | none => none
      | some y =>
        match runDowns (bc2 :: bcs) tb y with
        | none => none
        | some (z, st, k) => some (z, st ++ [y], k + 1) := rfl

theorem runDowns_plan (rest : List Nat) : ∀ (a B m m2 : Nat), 1 ≤ m → 1 ≤ m2 →
    runDowns (((a :: rest).zip rest).map (fun p => BlockCfg.mk p.1 p.2 false)) B
        ⟨B, a, 2 ^ rest.length * m, 2 ^ rest.length * m2⟩
      = some (⟨B, (a :: rest).getLast (List.cons_ne_nil a rest), m, m2⟩,
              stackFor B rest.dropLast.reverse (2 * m) (2 * m2),
              rest.length - 1) := by
  induction rest with
  | nil =>
    intro a B m m2 hm hm2
    simp [runDowns, stackFor]
  | cons b rest2 ih =>
    intro a B m m2 hm hm2
    cases rest2 with
    | nil =>
      show runDowns [⟨a, b, false⟩] B ⟨B, a, 2 ^ (0 + 1) * m, 2 ^ (0 + 1) * m2⟩
        = some (⟨B, (a :: [b]).getLast (List.cons_ne_nil a [b]), m, m2⟩, stackFor B [] (2 * m) (2 * m2), 0)
      rw [runDowns_single, block_down_shape a b B 0 m m2 hm hm2]
      simp [stackFor, List.getLast]
    | cons c rest3 =>
      show runDowns (⟨a, b, false⟩ :: ⟨b, c, false⟩
            :: ((c :: rest3).zip rest3).map (fun p => BlockCfg.mk p.1 p.2 false)) B
          ⟨B, a, 2 ^ ((rest3.length + 1) + 1) * m, 2 ^ ((rest3.length + 1) + 1) * m2⟩
        = some (⟨B, (a :: b :: c :: rest3).getLast (List.cons_ne_nil a (b :: c :: rest3)), m, m2⟩,
                stackFor B ((b :: c :: rest3).dropLast.reverse) (2 * m) (2 * m2),
                rest3.length + 1)
      rw [runDowns_cons_cons, block_down_shape a b B (rest3.length + 1) m m2 hm hm2]
      dsimp only
      have ih2 : runDowns (⟨b, c, false⟩
            :: ((c :: rest3).zip rest3).map (fun p => BlockCfg.mk p.1 p.2 false)) B
          ⟨B, b, 2 ^ (rest3.length + 1) * m, 2 ^ (rest3.length + 1) * m2⟩
        = some (⟨B, (b :: c :: rest3).getLast (List.cons_ne_nil b (c :: rest3)), m, m2⟩,
                stackFor B ((c :: rest3).dropLast.reverse) (2 * m) (2 * m2),
                rest3.length) := ih b B m m2 hm hm2
      rw [ih2]
      have hlast : (a :: b :: c :: rest3).getLast (List.cons_ne_nil a (b :: c :: rest3))
          = (b :: c :: rest3).getLast (List.cons_ne_nil b (c :: rest3)) :=
        List.getLast_cons (List.cons_ne_nil b (c :: rest3))
      have hstack : stackFor B ((b :: c :: rest3).dropLast.reverse) (2 * m) (2 * m2)
          = stackFor B ((c :: rest3).dropLast.reverse) (2 * m) (2 * m2)
            ++ [⟨B, b, 2 ^ (rest3.length + 1) * m, 2 ^ (rest3.length + 1) * m2⟩] := by
        rw [List.dropLast_cons₂, List.reverse_cons, stackFor_append]
        have hl : (c :: rest3).dropLast.reverse.length = rest3.length := by
          simp [List.length_dropLast]
        rw [hl]
        have e1 : 2 ^ rest3.length * (2 * m) = 2 ^ (rest3.length + 1) * m := by ring
        have e2 : 2 ^ rest3.length * (2 * m2) = 2 ^ (rest3.length + 1) * m2 := by ring
        rw [e1, e2]
      rw [hstack, hlast]

theorem catShape_same (B c1 c2 h w : Nat) :
    catShape ⟨B, c1, h, w⟩ ⟨B, c2, h, w⟩ = some ⟨B, c1 + c2, h, w⟩ := by
  simp [catShape]

theorem runUpsRest_cons (bc : BlockCfg) (bcs : List BlockCfg) (tb : Nat)
    (x r : TShape) (st : List TShape) :
    runUpsRest (bc :: bcs) tb x (r :: st) =
      match catShape x r with
      | none => none
      | some xr =>
        match bc.forward tb xr with
        | none => none
        | some y =>
          match runUpsRest bcs tb y st with
          | none => none
          | some (z, stF, k) => some (z, stF, k + 1) := rfl

theorem runUpsRest_plan (vs : List Nat) : ∀ (v B h w : Nat) (extra : List TShape),
    1 ≤ h → 1 ≤ w →
    runUpsRest ((((v :: vs).map (fun c => 2 * c)).zip vs).map
          (fun p => BlockCfg.mk p.1 p.2 true)) B
        ⟨B, v, h, w⟩ (stackFor B (v :: vs).dropLast h w ++ extra)
      = some (⟨B, (v :: vs).getLast (List.cons_ne_nil v vs),
              h * 2 ^ vs.length, w * 2 ^ vs.length⟩,
              extra, vs.length) := by
  induction vs with
  | nil =>
    intro v B h w extra hh hw
    simp [runUpsRest, stackFor]
  | cons v2 vs2 ih =>
    intro v B h w extra hh hw
    show runUpsRest (⟨2 * v, v2, true⟩
          :: (((v2 :: vs2).map (fun c => 2 * c)).zip vs2).map
              (fun p => BlockCfg.mk p.1 p.2 true)) B
        ⟨B, v, h, w⟩
        (⟨B, v, h, w⟩ :: (stackFor B ((v2 :: vs2).dropLast) (2 * h) (2 * w) ++ extra))
      = some (⟨B, (v :: v2 :: vs2).getLast (List.cons_ne_nil v (v2 :: vs2)),
              h * 2 ^ (vs2.length + 1), w * 2 ^ (vs2.length + 1)⟩,
              extra, vs2.length + 1)
    rw [runUpsRest_cons, catShape_same]
    dsimp only
    rw [show v + v = 2 * v from (two_mul v).symm]
    rw [block_up_shape (2 * v) v2 B h w hh hw]
    dsimp only
    have ih2 : runUpsRest ((((v2 :: vs2).map (fun c => 2 * c)).zip vs2).map
          (fun p => BlockCfg.mk p.1 p.2 true)) B
        ⟨B, v2, 2 * h, 2 * w⟩ (stackFor B (v2 :: vs2).dropLast (2 * h) (2 * w) ++ extra)
      = some (⟨B, (v2 :: vs2).getLast (List.cons_ne_nil v2 vs2),
              2 * h * 2 ^ vs2.length, 2 * w * 2 ^ vs2.length⟩,
              extra, vs2.length) := ih v2 B (2 * h) (2 * w) extra (by omega) (by omega)
    rw [ih2]
    rw [List.getLast_cons (List.cons_ne_nil v2 vs2)]
    have e1 : 2 * h * 2 ^ vs2.length = h * 2 ^ (vs2.length + 1) := by ring
    have e2 : 2 * w * 2 ^ vs2.length = w * 2 ^ (vs2.length + 1) := by ring
    rw [e1, e2]

theorem runUps_cons (bc : BlockCfg) (bcs : List BlockCfg) (tb : Nat)
    (x : TShape) (st : List TShape) :
    runUps (bc :: bcs) tb x st =
      match bc.forward tb x with
      | none => none
      | some y => runUpsRest bcs tb y st := rfl

theorem unet_forward_run (a : Nat) (rest : List Nat) (inC outC B m m2 : Nat)
    (u : SimpleUnet) (hm : 1 ≤ m) (hm2 : 1 ≤ m2)
    (hu : SimpleUnet.init (a :: rest) inC outC = some u) :
    u.forward B ⟨B, inC, 2 ^ rest.length * m, 2 ^ rest.length * m2⟩
      = some (⟨B, outC, 2 ^ rest.length * m, 2 ^ rest.length * m2⟩,
              [⟨B, a, 2 ^ rest.length * m, 2 ^ rest.length * m2⟩],
              rest.length - 1, rest.length - 1) := by
  have hpw : 1 ≤ 2 ^ rest.length := Nat.one_le_two_pow
  have hH : 1 ≤ 2 ^ rest.length * m := by nlinarith
  have hW : 1 ≤ 2 ^ rest.length * m2 := by nlinarith
  rcases hrev : (a :: rest).reverse with _ | ⟨u0, us⟩
  · exact absurd hrev (by simp)
  have hinit : SimpleUnet.init (a :: rest) inC outC = some
      { input_channels := inC
        output_channels := outC
        down_channels := a :: rest
        up_channels := u0 :: us
        up_in_channels := u0 :: us.map (fun c => 2 * c)
        downs := ((a :: rest).zip (a :: rest).tail).map (fun p => BlockCfg.mk p.1 p.2 false)
        ups := ((u0 :: us.map (fun c => 2 * c)).zip us).map
                  (fun p => BlockCfg.mk p.1 p.2 true) } := by
    simp only [SimpleUnet.init, hrev]
  rw [hinit] at hu
  injection hu with hu2
  subst hu2
  simp only [SimpleUnet.forward, List.headD_cons, List.tail_cons]
  rw [conv2dShape_3_1_1 inC a B inC _ _ rfl hH hW]
  dsimp only
  rw [runDowns_plan rest a B m m2 hm hm2]
  dsimp only
  rcases hrr : rest.reverse with _ | ⟨w0, ws⟩
  · -- rest = []: no up blocks; the stack keeps the seeded conv0 entry
    have hrnil : rest = [] := List.reverse_eq_nil_iff.mp hrr
    subst hrnil
    simp only [List.reverse_cons, List.reverse_nil, List.nil_append] at hrev
    injection hrev with h1 h2
    subst h1
    subst h2
    simp only [List.map_nil, List.zip_nil_right, runUps]
    dsimp only [stackFor, List.dropLast, List.reverse_nil, List.nil_append]
    rw [show ((a :: ([] : List Nat)).getLast (List.cons_ne_nil a []) : Nat) = a from rfl]
    rw [show ((a :: ([] : List Nat)).getLastD 0 : Nat) = a from rfl]
    rw [conv2dShape_1_1_0 a outC B a m m2 rfl hm hm2]
    simp
  · -- rest is nonempty
    have hrest : rest = ws.reverse ++ [w0] := by
      have := congrArg List.reverse hrr
      simpa using this
    have hus : u0 = w0 ∧ us = ws ++ [a] := by
      have h2 : (a :: rest).reverse = w0 :: (ws ++ [a]) := by
        rw [List.reverse_cons, hrr]
        rfl
      rw [hrev] at h2
      injection h2 with h3 h4
      exact ⟨h3, h4⟩
    obtain ⟨hu0, husv⟩ := hus
    subst hu0
    subst husv
    have hgl : (a :: rest).getLast (List.cons_ne_nil a rest) = u0 := by
      have e : a :: rest = (a :: ws.reverse) ++ [u0] := by
        rw [hrest]
        rfl
      have h7 : (a :: rest).getLast? = some u0 := by
        rw [e]
        exact List.getLast?_concat _
      rw [List.getLast?_eq_getLast _ (List.cons_ne_nil a rest)] at h7
      exact Option.some.inj h7
    have hdlr : rest.dropLast.reverse = ws := by
      rw [hrest, List.dropLast_concat, List.reverse_reverse]
    obtain ⟨v, vs, hvvs⟩ : ∃ v vs, ws ++ [a] = v :: vs := by
      cases ws with
      | nil => exact ⟨a, [], rfl⟩
      | cons q qs => exact ⟨q, qs ++ [a], rfl⟩
    have f1 : (v :: vs).dropLast = ws := by
      rw [← hvvs, List.dropLast_concat]
    have f2 : (v :: vs).getLast (List.cons_ne_nil v vs) = a := by
      have h5 : (v :: vs).getLast? = some a := by
        rw [← hvvs]
        exact List.getLast?_concat _
      rw [List.getLast?_eq_getLast _ (List.cons_ne_nil v vs)] at h5
      exact Option.some.inj h5
    have f3 : vs.length = ws.length := by
      have h6 := congrArg List.length hvvs
      simp at h6
      omega
    have hwl : ws.length = rest.length - 1 := by
      rw [hrest]
      simp
    have hrl : 1 ≤ rest.length := by
      rw [hrest]
      simp
    rw [hgl, hdlr, hvvs]
    have hups : runUps (((u0 :: (v :: vs).map (fun c => 2 * c)).zip (v :: vs)).map
          (fun p => BlockCfg.mk p.1 p.2 true)) B ⟨B, u0, m, m2⟩
          (stackFor B ws (2 * m) (2 * m2)
            ++ [⟨B, a, 2 ^ rest.length * m, 2 ^ rest.length * m2⟩])
        = some (⟨B, a, 2 * m * 2 ^ vs.length, 2 * m2 * 2 ^ vs.length⟩,
                [⟨B, a, 2 ^ rest.length * m, 2 ^ rest.length * m2⟩], vs.length) := by
      show runUps (⟨u0, v, true⟩
            :: (((v :: vs).map (fun c => 2 * c)).zip vs).map
                 (fun p => BlockCfg.mk p.1 p.2 true)) B ⟨B, u0, m, m2⟩
          (stackFor B ws (2 * m) (2 * m2)
            ++ [⟨B, a, 2 ^ rest.length * m, 2 ^ rest.length * m2⟩]) = _
      rw [runUps_cons]
      rw [block_up_shape u0 v B m m2 hm hm2]
      dsimp only
      rw [show stackFor B ws (2 * m) (2 * m2)
            = stackFor B (v :: vs).dropLast (2 * m) (2 * m2) from by rw [f1]]
      rw [runUpsRest_plan vs v B (2 * m) (2 * m2) _ (by omega) (by omega)]
      rw [f2]
    rw [hups]
    dsimp only
    rw [show ((u0 :: v :: vs).getLastD 0 : Nat)
          = (v :: vs).getLast (List.cons_ne_nil v vs) from rfl]
    rw [f2]
    have hsp1 : 2 * m * 2 ^ vs.length = 2 ^ rest.length * m := by
      rw [f3, hwl]
      rcases Nat.exists_eq_add_of_le hrl with ⟨k, hk⟩
      rw [hk]
      simp only [Nat.add_sub_cancel_left]
      ring
    have hsp2 : 2 * m2 * 2 ^ vs.length = 2 ^ rest.length * m2 := by
      rw [f3, hwl]
      rcases Nat.exists_eq_add_of_le hrl with ⟨k, hk⟩
      rw [hk]
      simp only [Nat.add_sub_cancel_left]
      ring
    rw [hsp1, hsp2]
    rw [conv2dShape_1_1_0 a outC B a _ _ rfl hH hW]
    have hct : vs.length = rest.length - 1 := by rw [f3, hwl]
    rw [hct]

theorem runDowns_counts (bl : List BlockCfg) : ∀ (tb : Nat) (x z : TShape)
    (st : List TShape) (k : Nat), runDowns bl tb x = some (z, st, k) →
    st.length = bl.length - 1 ∧ k = bl.length - 1 := by
  induction bl with
  | nil =>
    intro tb x z st k h
    simp only [runDowns, Option.some.injEq, Prod.mk.injEq] at h
    obtain ⟨h1, h2, h3⟩ := h
    subst h2
    subst h3
    simp
  | cons bc bcs ih =>
    intro tb x z st k h
    cases bcs with
    | nil =>
      rw [runDowns_single] at h
      cases hf : bc.forward tb x with
      | none => rw [hf] at h; cases h
      | some y =>
        rw [hf] at h
        simp only [Option.some.injEq, Prod.mk.injEq] at h
        obtain ⟨h1, h2, h3⟩ := h
        subst h2
        subst h3
        simp
    | cons bc2 bcs2 =>
      rw [runDowns_cons_cons] at h
      cases hf : bc.forward tb x with
      | none => rw [hf] at h; cases h
      | some y =>
        rw [hf] at h
        dsimp only at h
        cases hr : runDowns (bc2 :: bcs2) tb y with
        | none => rw [hr] at h; cases h
        | some r =>
          obtain ⟨z2, st2, k2⟩ := r
          rw [hr] at h
          simp only [Option.some.injEq, Prod.mk.injEq] at h
          obtain ⟨h1, h2, h3⟩ := h
          have ih2 := ih tb y z2 st2 k2 hr
          subst h2
          subst h3
          simp only [List.length_cons] at ih2 ⊢
          simp only [List.length_append, List.length_cons, List.length_nil]
          omega

theorem runUpsRest_counts (bcs : List BlockCfg) : ∀ (tb : Nat) (x : TShape)
    (st : List TShape) (z : TShape) (stF : List TShape) (k : Nat),
    runUpsRest bcs tb x st = some (z, stF, k) →
    k = bcs.length ∧ stF.length + bcs.length = st.length := by
  induction bcs with
  | nil =>
    intro tb x st z stF k h
    simp only [runUpsRest, Option.some.injEq, Prod.mk.injEq] at h
    obtain ⟨h1, h2, h3⟩ := h
    subst h2
    subst h3
    simp
  | cons bc bcs2 ih =>
    intro tb x st z stF k h
    cases st with
    | nil =>
      rw [show runUpsRest (bc :: bcs2) tb x [] = none from rfl] at h
      cases h
    | cons r st2 =>
      rw [runUpsRest_cons] at h
      cases hc : catShape x r with
      | none => rw [hc] at h; cases h
      | some xr =>
        rw [hc] at h
        dsimp only at h
        cases hf : bc.forward tb xr with
        | none => rw [hf] at h; cases h
        | some y =>
          rw [hf] at h
          dsimp only at h
          cases hr : runUpsRest bcs2 tb y st2 with
          | none => rw [hr] at h; cases h
          | some r2 =>
            obtain ⟨z2, stF2, k2⟩ := r2
            rw [hr] at h
            simp only [Option.some.injEq, Prod.mk.injEq] at h
            obtain ⟨h1, h2, h3⟩ := h
            have ih2 := ih tb y st2 z2 stF2 k2 hr
            subst h2
            subst h3
            simp only [List.length_cons] at ih2 ⊢
            omega

theorem runUps_counts (bcs : List BlockCfg) (tb : Nat) (x : TShape)
    (st : List TShape) (z : TShape) (stF : List TShape) (k : Nat)
    (h : runUps bcs tb x st = some (z, stF, k)) :
    k = bcs.length - 1 ∧ stF.length + (bcs.length - 1) = st.length := by
  cases bcs with
  | nil =>
    simp only [runUps, Option.some.injEq, Prod.mk.injEq] at h
    obtain ⟨h1, h2, h3⟩ := h
    subst h2
    subst h3
    simp
  | cons bc bcs2 =>
    rw [runUps_cons] at h
    cases hf : bc.forward tb x with
    | none => rw [hf] at h; cases h
    | some y =>
      rw [hf] at h
      dsimp only at h
      have h2 := runUpsRest_counts bcs2 tb y st z stF k h
      simp only [List.length_cons]
      omega

theorem init_lengths (plan : List Nat) (inC outC : Nat) (u : SimpleUnet)
    (hu : SimpleUnet.init plan inC outC = some u) :
    u.downs.length = plan.length - 1 ∧ u.ups.length = plan.length - 1 := by
  rcases hrev : plan.reverse with _ | ⟨u0, us⟩
  · simp only [SimpleUnet.init, hrev] at hu
    cases hu
  · simp only [SimpleUnet.init, hrev] at hu
    have husl : us.length + 1 = plan.length := by
      have h6 := congrArg List.length hrev
      simp at h6
      omega
    injection hu with h
    subst h
    constructor
    · simp only [List.length_map, List.length_zip, List.length_tail]
      omega
    · simp only [List.length_map, List.length_zip, List.length_cons]
      omega

theorem get?_some_getD {α : Type} (l : List α) (i : Nat) (d : α) (h : i < l.length) :
    l.get? i = some (l.getD i d) := by
  rw [List.getD_eq_getElem?_getD, ← List.get?_eq_getElem?]
  cases hg : l.get? i with
  | none =>
    rw [List.get?_eq_none] at hg
    omega
  | some v => rfl

theorem get?_zip_eq_some {α β : Type} (as : List α) :
    ∀ (bs : List β) (i : Nat) (x : α) (y : β),
    as.get? i = some x → bs.get? i = some y → (as.zip bs).get? i = some (x, y) := by
  induction as with
  | nil =>
    intro bs i x y ha hb
    cases ha
  | cons a as2 ih =>
    intro bs i x y ha hb
    cases bs with
    | nil => cases hb
    | cons b bs2 =>
      cases i with
      | zero =>
        injection ha with ha2
        injection hb with hb2
        subst ha2
        subst hb2
        rfl
      | succ j =>
        exact ih bs2 j x y ha hb

/-! ## Claim C1 -/

/-- C1 (amended): for every successfully completing forward pass of
`SimpleUnet.forward` with a channel plan of length at least 2, the number of
entries pushed onto the skip stack during the down pass equals the number of
entries popped during the up pass (both `len(plan) - 2`, with up-stage 0
consuming no skip entry), but the stack is **not** empty when the up pass
completes: exactly one entry remains — the initial projection's output,
seeded into `residual_inputs = [x]` before the down loop and never
popped. -/
theorem c1_skip_stack_balance (a b2 : Nat) (rest : List Nat) (inC outC tb : Nat)
    (u : SimpleUnet) (x y : TShape) (st : List TShape) (p q : Nat)
    (hu : SimpleUnet.init (a :: b2 :: rest) inC outC = some u)
    (hr : u.forward tb x = some (y, st, p, q)) :
    p = q ∧ p = (a :: b2 :: rest).length - 2 ∧ st.length = 1 := by
  obtain ⟨hdl, hul⟩ := init_lengths (a :: b2 :: rest) inC outC u hu
  simp only [SimpleUnet.forward] at hr
  cases h0 : conv2dShape u.input_channels (u.down_channels.headD 0) 3 1 1 x with
  | none => rw [h0] at hr; cases hr
  | some x0 =>
    rw [h0] at hr
    dsimp only at hr
    cases h1 : runDowns u.downs tb x0 with
    | none => rw [h1] at hr; cases hr
    | some r1 =>
      obtain ⟨xd, pushed, npush⟩ := r1
      rw [h1] at hr
      dsimp only at hr
      cases h2 : runUps u.ups tb xd (pushed ++ [x0]) with
      | none => rw [h2] at hr; cases hr
      | some r2 =>
        obtain ⟨xu, stF, npop⟩ := r2
        rw [h2] at hr
        dsimp only at hr
        cases h3 : conv2dShape (u.up_channels.getLastD 0) u.output_channels 1 1 0 xu with
        | none => rw [h3] at hr; cases hr
        | some yy =>
          rw [h3] at hr
          simp only [Option.some.injEq, Prod.mk.injEq] at hr
          obtain ⟨hy, hst, hp, hq⟩ := hr
          obtain ⟨hpl, hkl⟩ := runDowns_counts u.downs tb x0 xd pushed npush h1
          obtain ⟨hql, hsl⟩ := runUps_counts u.ups tb xd (pushed ++ [x0]) xu stF npop h2
          subst hst
          subst hp
          subst hq
          simp only [List.length_append, List.length_cons, List.length_nil] at *
          omega

theorem c1_skip_stack_balance_witness :
    (1 : Nat) = 1 ∧ (1 : Nat) = (4 :: 8 :: [16] : List Nat).length - 2 ∧
      ([(⟨1, 4, 4, 4⟩ : TShape)] : List TShape).length = 1 :=
  c1_skip_stack_balance 4 8 [16] 2 2 1 unetW1 ⟨1, 2, 4, 4⟩ ⟨1, 2, 4, 4⟩
    [⟨1, 4, 4, 4⟩] 1 1 (by decide) (by decide)

/-- C1 counterexample: with the channel plan `(64, 128, 256, 512, 1024)`,
input channels 3, output channels 3, the forward pass on a `[1, 3, 64, 64]`
input completes and the skip stack is **not** empty when the up pass
completes — one entry of shape `[1, 64, 64, 64]` (the initial projection's
output) remains, refuting "the stack is empty exactly when the up pass
completes". -/
theorem c1_skip_stack_balance_cex :
    (SimpleUnet.init [64, 128, 256, 512, 1024] 3 3).bind
        (fun u => u.stackAfter 1 ⟨1, 3, 64, 64⟩)
      = some [⟨1, 64, 64, 64⟩] ∧
    ([(⟨1, 64, 64, 64⟩ : TShape)] : List TShape) ≠ [] := by
  exact ⟨by decide, by decide⟩

/-! ## Claim C2 -/

/-- C2: for every channel plan, batch size and power-of-two-safe spatial
size (`H = 2^(len(plan)-1) * m`, `W = 2^(len(plan)-1) * m'` with `m, m' ≥
1`), the forward pass on a `[B, C_in, H, W]` input with a `[B]` timestep
batch returns shape `[B, C_out, H, W]` with no shape errors; in particular
the channel plan `(64, 128, 256, 512, 1024)` with input and output channels
3 maps a `[1, 3, 64, 64]` input (timestep batch of length 1) to
`[1, 3, 64, 64]`. -/
theorem c2_forward_shape :
    (∀ (a : Nat) (rest : List Nat) (inC outC B m m2 : Nat) (u : SimpleUnet),
       1 ≤ m → 1 ≤ m2 →
       SimpleUnet.init (a :: rest) inC outC = some u →
       u.forwardShape B ⟨B, inC, 2 ^ rest.length * m, 2 ^ rest.length * m2⟩
         = some ⟨B, outC, 2 ^ rest.length * m, 2 ^ rest.length * m2⟩) ∧
    ((SimpleUnet.init [64, 128, 256, 512, 1024] 3 3).bind
        (fun u => u.forwardShape 1 ⟨1, 3, 64, 64⟩)
      = some ⟨1, 3, 64, 64⟩) := by
  constructor
  · intro a rest inC outC B m m2 u hm hm2 hu
    simp only [SimpleUnet.forwardShape]
    rw [unet_forward_run a rest inC outC B m m2 u hm hm2 hu]
    rfl
  · decide

theorem c2_forward_shape_witness :
    unetW2.forwardShape 2 ⟨2, 1, 12, 4⟩ = some ⟨2, 5, 12, 4⟩ :=
  c2_forward_shape.1 4 [8, 16] 1 5 2 3 1 unetW2 (by decide) (by decide) (by decide)

/-! ## Claim C3 -/

/-- C3: for every nonempty channel plan, construction builds a down path of
length `len(plan) - 1` pairing consecutive plan entries, and an up path of
length `len(plan) - 1` over the reversed plan, where each up stage `i ≥ 1`
has input channel width `2 * reversed_plan[i]` and output width
`reversed_plan[i+1]`, while up-stage 0 has input width equal to the last
down-channel width alone; all of this is fixed at construction time. -/
theorem c3_construction (plan : List Nat) (inC outC : Nat) (h : plan ≠ []) :
    ∃ u, SimpleUnet.init plan inC outC = some u ∧
      u.downs.length = plan.length - 1 ∧
      u.ups.length = plan.length - 1 ∧
      (∀ i, i < plan.length - 1 →
        (u.downs.getD i default).in_ch = plan.getD i 0 ∧
        (u.downs.getD i default).out_ch = plan.getD (i + 1) 0) ∧
      (∀ i, i < plan.length - 1 →
        (u.ups.getD i default).out_ch = plan.reverse.getD (i + 1) 0) ∧
      (∀ i, 0 < i → i < plan.length - 1 →
        (u.ups.getD i default).in_ch = 2 * plan.reverse.getD i 0) ∧
      (2 ≤ plan.length → (u.ups.getD 0 default).in_ch = plan.getLast h) := by
  rcases hrev : plan.reverse with _ | ⟨u0, us⟩
  · exact absurd (List.reverse_eq_nil_iff.mp hrev) h
  have husl : us.length + 1 = plan.length := by
    have h6 := congrArg List.length hrev
    simp at h6
    omega
  refine ⟨{ input_channels := inC
            output_channels := outC
            down_channels := plan
            up_channels := u0 :: us
            up_in_channels := u0 :: us.map (fun c => 2 * c)
            downs := (plan.zip plan.tail).map (fun p => BlockCfg.mk p.1 p.2 false)
            ups := ((u0 :: us.map (fun c => 2 * c)).zip us).map
                      (fun p => BlockCfg.mk p.1 p.2 true) },
          by simp only [SimpleUnet.init, hrev], ?_, ?_, ?_, ?_, ?_, ?_⟩
  · simp only [List.length_map, List.length_zip, List.length_tail]
    omega
  · simp only [List.length_map, List.length_zip, List.length_cons]
    omega
  · intro i hi
    have hi1 : i < plan.length := by omega
    have h1 : plan.get? i = some (plan.getD i 0) := get?_some_getD plan i 0 hi1
    have h2 : plan.tail.get? i = some (plan.getD (i + 1) 0) := by
      cases plan with
      | nil => simp at hi1
      | cons p0 prest =>
        show prest.get? i = some (prest.getD i 0)
        exact get?_some_getD prest i 0 (by simp only [List.length_cons] at hi; omega)
    have hz := get?_zip_eq_some plan plan.tail i _ _ h1 h2
    have hgd : ((plan.zip plan.tail).map (fun p => BlockCfg.mk p.1 p.2 false)).getD i default
        = BlockCfg.mk (plan.getD i 0) (plan.getD (i + 1) 0) false := by
      rw [show ((plan.zip plan.tail).map (fun p => BlockCfg.mk p.1 p.2 false)).getD i default
            = (((plan.zip plan.tail).map (fun p => BlockCfg.mk p.1 p.2 false)).get? i).getD
                default from rfl]
      rw [List.get?_map, hz]
      rfl
    rw [hgd]
    exact ⟨rfl, rfl⟩
  · intro i hi
    have hiu : i < us.length := by omega
    have h2 : us.get? i = some (us.getD i 0) := get?_some_getD us i 0 hiu
    have h1 : (u0 :: us.map (fun c => 2 * c)).get? i
        = some ((u0 :: us.map (fun c => 2 * c)).getD i 0) :=
      get?_some_getD _ i 0 (by simp only [List.length_cons, List.length_map]; omega)
    have hz := get?_zip_eq_some _ us i _ _ h1 h2
    have hgd : (((u0 :: us.map (fun c => 2 * c)).zip us).map
          (fun p => BlockCfg.mk p.1 p.2 true)).getD i default
        = BlockCfg.mk ((u0 :: us.map (fun c => 2 * c)).getD i 0) (us.getD i 0) true := by
      rw [show (((u0 :: us.map (fun c => 2 * c)).zip us).map
            (fun p => BlockCfg.mk p.1 p.2 true)).getD i default
            = ((((u0 :: us.map (fun c => 2 * c)).zip us).map
                (fun p => BlockCfg.mk p.1 p.2 true)).get? i).getD default from rfl]
      rw [List.get?_map, hz]
      rfl
    rw [hgd]
    rfl
  · intro i hpos hi
    obtain ⟨j, rfl⟩ : ∃ j, i = j + 1 := ⟨i - 1, by omega⟩
    have h2 : us.get? (j + 1) = some (us.getD (j + 1) 0) :=
      get?_some_getD us (j + 1) 0 (by omega)
    have h1 : (u0 :: us.map (fun c => 2 * c)).get? (j + 1) = some (2 * us.getD j 0) := by
      show (us.map (fun c => 2 * c)).get? j = some (2 * us.getD j 0)
      rw [List.get?_map, get?_some_getD us j 0 (by omega)]
      rfl
    have hz := get?_zip_eq_some _ us (j + 1) _ _ h1 h2
    have hgd : (((u0 :: us.map (fun c => 2 * c)).zip us).map
          (fun p => BlockCfg.mk p.1 p.2 true)).getD (j + 1) default
        = BlockCfg.mk (2 * us.getD j 0) (us.getD (j + 1) 0) true := by
      rw [show (((u0 :: us.map (fun c => 2 * c)).zip us).map
            (fun p => BlockCfg.mk p.1 p.2 true)).getD (j + 1) default
            = ((((u0 :: us.map (fun c => 2 * c)).zip us).map
                (fun p => BlockCfg.mk p.1 p.2 true)).get? (j + 1)).getD default from rfl]
      rw [List.get?_map, hz]
      rfl
    rw [hgd]
    rfl
  · intro hlen2
    have husne : us ≠ [] := by
      intro he
      rw [he] at husl
      simp at husl
      omega
    obtain ⟨v, vs, rfl⟩ : ∃ v vs, us = v :: vs := by
      cases us with
      | nil => exact absurd rfl husne
      | cons v vs => exact ⟨v, vs, rfl⟩
    have h7 : plan.getLast? = some u0 := by
      rw [← List.head?_reverse, hrev]
      rfl
    rw [List.getLast?_eq_getLast plan h] at h7
    exact (Option.some.inj h7).symm

theorem c3_construction_witness :
    ∃ u, SimpleUnet.init [64, 128, 256, 512, 1024] 3 3 = some u ∧
      u.downs.length = ([64, 128, 256, 512, 1024] : List Nat).length - 1 ∧
      u.ups.length = ([64, 128, 256, 512, 1024] : List Nat).length - 1 ∧
      (∀ i, i < ([64, 128, 256, 512, 1024] : List Nat).length - 1 →
        (u.downs.getD i default).in_ch = ([64, 128, 256, 512, 1024] : List Nat).getD i 0 ∧
        (u.downs.getD i default).out_ch
          = ([64, 128, 256, 512, 1024] : List Nat).getD (i + 1) 0) ∧
      (∀ i, i < ([64, 128, 256, 512, 1024] : List Nat).length - 1 →
        (u.ups.getD i default).out_ch
          = ([64, 128, 256, 512, 1024] : List Nat).reverse.getD (i + 1) 0) ∧
      (∀ i, 0 < i → i < ([64, 128, 256, 512, 1024] : List Nat).length - 1 →
        (u.ups.getD i default).in_ch
          = 2 * ([64, 128, 256, 512, 1024] : List Nat).reverse.getD i 0) ∧
      (2 ≤ ([64, 128, 256, 512, 1024] : List Nat).length →
        (u.ups.getD 0 default).in_ch
          = ([64, 128, 256, 512, 1024] : List Nat).getLast (by decide)) :=
  c3_construction [64, 128, 256, 512, 1024] 3 3 (by decide)

/-! ## Claim C4 -/

theorem spatialAttention_eq_spec {b c h w : Nat} (sg : ℚ → ℚ)
    (conv : Tensor b 2 h w → Tensor b 1 h w) (x : Tensor b (c + 1) h w) :
    SpatialAttention.forward sg conv x = specAttentionGate sg conv x := by
  funext bi ci i j
  simp only [SpatialAttention.forward, specAttentionGate]
  exact mul_comm _ _

/-- C4: `Block.forward` computes exactly the spec's step list in the spec's
order — convolve, activate, then normalize (not normalize-then-activate);
project and activate the time embedding and broadcast-add it; second
convolution, again activate-then-normalize; the attention gate (channel
mean and channel max concatenated to 2 channels, convolved to 1 channel,
gated, multiplied into every channel) when enabled; dropout when
configured; and finally the resampling, which preserves the channel count
and, at the shape level, halves both spatial extents in down mode (strided
convolution) and doubles them in up mode (strided transposed
convolution). -/
theorem c4_block_order :
    (∀ (b in_ch oc h w h2 w2 tdim : Nat) (p : BlockParams b in_ch oc h w h2 w2 tdim)
        (x : Tensor b in_ch h w) (t : Mat b tdim),
        Block.forward p x t = specBlockForward p x t) ∧
    (∀ (bc : BlockCfg) (tb : Nat) (x y : TShape),
        bc.forward tb x = some y → y.c = bc.out_ch) ∧
    (∀ (ic oc B m m2 : Nat), 1 ≤ m → 1 ≤ m2 →
        BlockCfg.forward ⟨ic, oc, false⟩ B ⟨B, ic, 2 * m, 2 * m2⟩
          = some ⟨B, oc, m, m2⟩) ∧
    (∀ (ic oc B h w : Nat), 1 ≤ h → 1 ≤ w →
        BlockCfg.forward ⟨ic, oc, true⟩ B ⟨B, ic, h, w⟩
          = some ⟨B, oc, 2 * h, 2 * w⟩) := by
  refine ⟨?_, ?_, ?_, ?_⟩
  · intro b in_ch oc h w h2 w2 tdim p x t
    simp only [Block.forward, specBlockForward]
    cases p.attn_conv with
    | none => rfl
    | some ac =>
      cases p.drop with
      | none =>
        dsimp only
        rw [spatialAttention_eq_spec]
      | some d =>
        dsimp only
        rw [spatialAttention_eq_spec]
  · intro bc tb x y hf
    simp only [BlockCfg.forward] at hf
    cases h1 : conv2dShape bc.in_ch bc.out_ch 3 1 1 x with
    | none => rw [h1] at hf; cases hf
    | some a1 =>
      rw [h1] at hf
      dsimp only at hf
      cases hbd : broadcastDim a1.b tb with
      | none => rw [hbd] at hf; cases hf
      | some b2 =>
        rw [hbd] at hf
        dsimp only at hf
        cases h3 : conv2dShape bc.out_ch bc.out_ch 3 1 1 ⟨b2, a1.c, a1.h, a1.w⟩ with
        | none => rw [h3] at hf; cases hf
        | some a3 =>
          rw [h3] at hf
          dsimp only at hf
          by_cases hup : bc.up = true
          · rw [if_pos hup] at hf
            simp only [convTranspose2dShape] at hf
            split_ifs at hf with hcond
            injection hf with hy
            rw [← hy]
          · rw [if_neg hup] at hf
            simp only [conv2dShape] at hf
            split_ifs at hf with hcond
            injection hf with hy
            rw [← hy]
  · intro ic oc B m m2 hm hm2
    have hd := block_down_shape ic oc B 0 m m2 hm hm2
    simpa using hd
  · intro ic oc B h w hh hw
    exact block_up_shape ic oc B h w hh hw

theorem c4_block_order_witness :
    (Block.forward blockParamsC tensorC matC = specBlockForward blockParamsC tensorC matC) ∧
    ((⟨1, 4, 2, 2⟩ : TShape).c = (⟨3, 4, false⟩ : BlockCfg).out_ch) ∧
    (BlockCfg.forward ⟨3, 4, false⟩ 1 ⟨1, 3, 2 * 2, 2 * 2⟩ = some ⟨1, 4, 2, 2⟩) ∧
    (BlockCfg.forward ⟨3, 4, true⟩ 1 ⟨1, 3, 4, 4⟩ = some ⟨1, 4, 2 * 4, 2 * 4⟩) :=
  ⟨c4_block_order.1 1 1 0 1 1 1 1 1 blockParamsC tensorC matC,
   c4_block_order.2.1 ⟨3, 4, false⟩ 1 ⟨1, 3, 4, 4⟩ ⟨1, 4, 2, 2⟩ (by decide),
   c4_block_order.2.2.1 3 4 1 2 2 (by decide) (by decide),
   c4_block_order.2.2.2 3 4 1 4 4 (by decide) (by decide)⟩

/-! ## Claims C9 and C10 -/

/-- C9 (amended): for every even target dimension D other than 2 and every
timestep batch, `SinusoidalPositionEmbeddings.forward` returns a B×D matrix
(`half - 1 = 0` at D = 2 raises a division-by-zero error instead); and for
D = 32 with the single timestep 0, the first half of the row is all zeros
(sine of zero) and the second half all ones (cosine of zero). -/
theorem c9_sinusoidal :
    (∀ (dim : Nat) (time : List ℝ), dim % 2 = 0 → dim ≠ 2 →
       ∃ rows, SinusoidalPositionEmbeddings.forward dim time = .ok rows ∧
         rows.length = time.length ∧ ∀ r ∈ rows, r.length = dim) ∧
    (SinusoidalPositionEmbeddings.forward 32 [0]
       = .ok [List.replicate 16 0 ++ List.replicate 16 1]) := by
  constructor
  · intro dim time hev hne
    have hhalf : ¬ (((dim / 2 : Nat) : Int) - 1 = 0) := by
      intro hz
      have h1 : ((dim / 2 : Nat) : Int) = 1 := by omega
      have h2 : (dim / 2 : Nat) = 1 := by exact_mod_cast h1
      omega
    obtain ⟨rows, hrows⟩ : ∃ rows, SinusoidalPositionEmbeddings.forward dim time
        = .ok rows := by
      simp only [SinusoidalPositionEmbeddings.forward]
      rw [if_neg hhalf]
      exact ⟨_, rfl⟩
    have hrows2 := hrows
    simp only [SinusoidalPositionEmbeddings.forward] at hrows2
    rw [if_neg hhalf] at hrows2
    injection hrows2 with he
    refine ⟨rows, hrows, ?_, ?_⟩
    · rw [← he]
      simp
    · intro r hr
      rw [← he] at hr
      simp only [List.mem_map] at hr
      obtain ⟨t, ht, rfl⟩ := hr
      simp only [List.length_append, List.length_map, List.length_range]
      omega
  · have h16 : ¬ ((((32 / 2 : Nat) : Int) - 1) = 0) := by decide
    simp only [SinusoidalPositionEmbeddings.forward]
    rw [if_neg h16]
    simp only [List.map_cons, List.map_nil, zero_mul, Real.sin_zero, Real.cos_zero]
    rw [List.map_const', List.map_const']
    simp

theorem c9_sinusoidal_witness :
    ∃ rows, SinusoidalPositionEmbeddings.forward 4 [1, 2] = .ok rows ∧
      rows.length = ([(1 : ℝ), 2] : List ℝ).length ∧ ∀ r ∈ rows, r.length = 4 :=
  c9_sinusoidal.1 4 [1, 2] (by decide) (by decide)

/-- C9 counterexample: at the even dimension D = 2 (so `half_dim = 1`), the
frequency scale `math.log(10000) / (half_dim - 1)` divides by zero and the
call raises instead of returning a B×2 matrix, refuting "for every even D
... the output has shape B×D". -/
theorem c9_sinusoidal_cex :
    SinusoidalPositionEmbeddings.forward 2 [0] = .error PyErr.zeroDivisionError := by
  rfl

/-- C10 (amended): for every odd target dimension D ≥ 5 and every timestep
batch, `SinusoidalPositionEmbeddings.forward` silently returns a matrix of
width `2 * (D // 2) = D - 1` rather than D, raising no error; at D = 3
(where `half_dim = 1`) it instead raises a division-by-zero error. -/
theorem c10_odd_dim (dim : Nat) (time : List ℝ) (hodd : dim % 2 = 1) (h5 : 5 ≤ dim) :
    ∃ rows, SinusoidalPositionEmbeddings.forward dim time = .ok rows ∧
      rows.length = time.length ∧ ∀ r ∈ rows, r.length = dim - 1 := by
  have hhalf : ¬ (((dim / 2 : Nat) : Int) - 1 = 0) := by
    intro hz
    have h1 : ((dim / 2 : Nat) : Int) = 1 := by omega
    have h2 : (dim / 2 : Nat) = 1 := by exact_mod_cast h1
    omega
  obtain ⟨rows, hrows⟩ : ∃ rows, SinusoidalPositionEmbeddings.forward dim time
      = .ok rows := by
    simp only [SinusoidalPositionEmbeddings.forward]
    rw [if_neg hhalf]
    exact ⟨_, rfl⟩
  have hrows2 := hrows
  simp only [SinusoidalPositionEmbeddings.forward] at hrows2
  rw [if_neg hhalf] at hrows2
  injection hrows2 with he
  refine ⟨rows, hrows, ?_, ?_⟩
  · rw [← he]
    simp
  · intro r hr
    rw [← he] at hr
    simp only [List.mem_map] at hr
    obtain ⟨t, ht, rfl⟩ := hr
    simp only [List.length_append, List.length_map, List.length_range]
    omega

theorem c10_odd_dim_witness :
    ∃ rows, SinusoidalPositionEmbeddings.forward 5 [3] = .ok rows ∧
      rows.length = ([(3 : ℝ)] : List ℝ).length ∧ ∀ r ∈ rows, r.length = 5 - 1 :=
  c10_odd_dim 5 [3] (by decide) (by decide)

/-- C10 counterexample: at the odd dimension D = 3 (`half_dim = 1`) the
call raises a division-by-zero error rather than silently returning a
width-2 matrix, refuting the claim for "every odd D ≥ 3". -/
theorem c10_odd_dim_cex :
    SinusoidalPositionEmbeddings.forward 3 [0] = .error PyErr.zeroDivisionError := by
  rfl
